import Mathlib

/-!
Verification of the hex codec library (`src/lib.rs`).

Byte sequences are modelled as `List Nat` whose elements are understood to be
`< 256`; hex text is likewise a `List Nat` of 8-bit code units (the Rust code
operates on `&[u8]`, never on decoded unicode text).
-/

namespace HexSpec

/-- The lowercase nibble table `b"0123456789abcdef"` (byte values). -/
def HEX_CHARS_LOWER : List Nat :=
  [48, 49, 50, 51, 52, 53, 54, 55, 56, 57, 97, 98, 99, 100, 101, 102]

/-- The uppercase nibble table `b"0123456789ABCDEF"` (byte values). -/
def HEX_CHARS_UPPER : List Nat :=
  [48, 49, 50, 51, 52, 53, 54, 55, 56, 57, 65, 66, 67, 68, 69, 70]

/-- The error type `FromHexError`.  The offending character is kept as the
byte value that was inspected (Rust stores `c as char`, a code point equal to
that byte value). -/
inductive FromHexError where
  | InvalidHexCharacter (c : Nat) (index : Nat)
  | OddLength
  | InvalidStringLength
deriving DecidableEq, Repr

/-- State of the lazy encoder `BytesToHexChars`: the not-yet-consumed input
bytes, the nibble table, and the buffered pending low-nibble character. -/
structure BytesToHexChars where
  inner : List Nat
  table : List Nat
  next : Option Nat
deriving DecidableEq, Repr

/-- `BytesToHexChars::new`. -/
def BytesToHexChars.new (inner table : List Nat) : BytesToHexChars :=
  { inner := inner, table := table, next := none }

/-- `ExactSizeIterator::len` for `BytesToHexChars`. -/
def BytesToHexChars.len (s : BytesToHexChars) : Nat :=
  let length := s.inner.length * 2
  if s.next.isSome then length + 1 else length

/-- `Iterator::next` for `BytesToHexChars`: yield the buffered character if
present, otherwise consume one input byte, yield its high-nibble character and
buffer its low-nibble character. -/
def BytesToHexChars.nextChar (s : BytesToHexChars) :
    Option (Nat × BytesToHexChars) :=
  match s.next with
  | some current => some (current, { s with next := none })
  | none =>
    match s.inner with
    | [] => none
    | byte :: rest =>
      some (s.table.getD (byte >>> 4) 0,
        { s with inner := rest, next := some (s.table.getD (byte &&& 0xf) 0) })

/-- `Iterator::size_hint` for `BytesToHexChars`. -/
def BytesToHexChars.sizeHint (s : BytesToHexChars) : Nat × Option Nat :=
  (s.len, some s.len)

theorem nextChar_len_lt {s : BytesToHexChars} {c : Nat} {s' : BytesToHexChars}
    (h : s.nextChar = some (c, s')) : s'.len < s.len := by
  unfold BytesToHexChars.nextChar at h
  cases hn : s.next with
  | some cur =>
    rw [hn] at h
    cases h
    simp [BytesToHexChars.len, hn]
  | none =>
    rw [hn] at h
    cases hi : s.inner with
    | nil => rw [hi] at h; cases h
    | cons b rest =>
      rw [hi] at h
      cases h
      simp [BytesToHexChars.len, hn, hi]
      omega

/-- Materialising the iterator (`Iterator::collect`): repeatedly call
`nextChar` until it returns `none`. -/
def collectChars (s : BytesToHexChars) : List Nat :=
  match h : s.nextChar with
  | none => []
  | some (c, s') => c :: collectChars s'
termination_by s.len
decreasing_by exact nextChar_len_lt h

/-- `encode_to_iter`. -/
def encodeToIter (table source : List Nat) : List Nat :=
  collectChars (BytesToHexChars.new source table)

/-- `ToHex::encode_hex` (for byte-slice-like receivers). -/
def encodeHex (data : List Nat) : List Nat :=
  encodeToIter HEX_CHARS_LOWER data

/-- `ToHex::encode_hex_upper`. -/
def encodeHexUpper (data : List Nat) : List Nat :=
  encodeToIter HEX_CHARS_UPPER data

/-- `hex::encode`. -/
def encode (data : List Nat) : List Nat :=
  encodeHex data

/-- `hex::encode_upper`. -/
def encodeUpper (data : List Nat) : List Nat :=
  encodeHexUpper data

/-- The nibble-value function `val`: `'A'..='F'` (65..=70), `'a'..='f'`
(97..=102), `'0'..='9'` (48..=57), otherwise `InvalidHexCharacter`. -/
def val (c : Nat) (idx : Nat) : Except FromHexError Nat :=
  if 65 ≤ c ∧ c ≤ 70 then .ok (c - 65 + 10)
  else if 97 ≤ c ∧ c ≤ 102 then .ok (c - 97 + 10)
  else if 48 ≤ c ∧ c ≤ 57 then .ok (c - 48)
  else .error (.InvalidHexCharacter c idx)

/-- The pairwise decoding loop of `<Vec<u8> as FromHex>::from_hex`:
`hex.chunks(2).enumerate().map(|(i, pair)| Ok(val(pair[0], 2*i)? << 4 |
val(pair[1], 2*i+1)?)).collect()`.  `collect` over `Result` stops at the
first error.  A trailing singleton chunk cannot occur (the caller has
checked evenness); that branch is given the value `.ok []`. -/
def decodePairs : List Nat → Nat → Except FromHexError (List Nat)
  | [], _ => .ok []
  | [_], _ => .ok []
  | c1 :: c2 :: rest, i =>
    match val c1 (2 * i), val c2 (2 * i + 1) with
    | .error e, _ => .error e
    | .ok _, .error e => .error e
    | .ok h, .ok l =>
      match decodePairs rest (i + 1) with
      | .error e => .error e
      | .ok tail => .ok ((h <<< 4 ||| l) :: tail)

/-- `<Vec<u8> as FromHex>::from_hex`. -/
def fromHex (hex : List Nat) : Except FromHexError (List Nat) :=
  if hex.length % 2 ≠ 0 then .error .OddLength
  else decodePairs hex 0

/-- `hex::decode`. -/
def decode (data : List Nat) : Except FromHexError (List Nat) :=
  fromHex data

/-- The write loop of `decode_to_slice`: iterate over the output slice
(`out.iter_mut().enumerate()`); at output position `i` compute
`val(data[2*i], 2*i)? << 4 | val(data[2*i+1], 2*i+1)?` and store it.  The
returned list is the final state of the output buffer (positions already
passed are overwritten; on error the current and later positions keep their
old contents). -/
def decodeToSliceGo (data : List Nat) :
    List Nat → Nat → Except FromHexError Unit × List Nat
  | [], _ => (.ok (), [])
  | b :: rest, i =>
    match val (data.getD (2 * i) 0) (2 * i),
          val (data.getD (2 * i + 1) 0) (2 * i + 1) with
    | .error e, _ => (.error e, b :: rest)
    | .ok _, .error e => (.error e, b :: rest)
    | .ok h, .ok l =>
      let r := decodeToSliceGo data rest (i + 1)
      (r.1, (h <<< 4 ||| l) :: r.2)

/-- `hex::decode_to_slice`.  Returns the `Result` together with the final
contents of the output buffer. -/
def decodeToSlice (data out : List Nat) :
    Except FromHexError Unit × List Nat :=
  if data.length % 2 ≠ 0 then (.error .OddLength, out)
  else if data.length / 2 ≠ out.length then (.error .InvalidStringLength, out)
  else decodeToSliceGo data out 0

/-- `<[u8; N] as FromHex>::from_hex` (from `from_hex_array_impl!`): start
from a zeroed array of length `N`, run `decode_to_slice`, return the array
on success. -/
def fromHexArray (N : Nat) (hex : List Nat) : Except FromHexError (List Nat) :=
  match decodeToSlice hex (List.replicate N 0) with
  | (.ok _, out) => .ok out
  | (.error e, _) => .error e

instance {ε α : Type} [DecidableEq ε] [DecidableEq α] :
    DecidableEq (Except ε α) := fun x y =>
  match x, y with
  | .ok a, .ok b =>
    if h : a = b then .isTrue (by rw [h])
    else .isFalse (by intro hc; cases hc; exact h rfl)
  | .error a, .error b =>
    if h : a = b then .isTrue (by rw [h])
    else .isFalse (by intro hc; cases hc; exact h rfl)
  | .ok _, .error _ => .isFalse (by intro hc; cases hc)
  | .error _, .ok _ => .isFalse (by intro hc; cases hc)

theorem collectChars_unfold (s : BytesToHexChars) :
    collectChars s =
      match s.nextChar with
      | none => []
      | some (c, s') => c :: collectChars s' := by
  rw [collectChars]
  split <;> simp_all

theorem collectChars_pending (inner table : List Nat) (c : Nat) :
    collectChars ⟨inner, table, some c⟩ =
      c :: collectChars ⟨inner, table, none⟩ := by
  rw [collectChars_unfold]
  rfl

/-- Each encoded byte contributes its two table characters. -/
def hexPair (table : List Nat) (b : Nat) : List Nat :=
  [table.getD (b >>> 4) 0, table.getD (b &&& 0xf) 0]

theorem collectChars_none_eq (inner table : List Nat) :
    collectChars ⟨inner, table, none⟩ = inner.flatMap (hexPair table) := by
  induction inner with
  | nil => rw [collectChars_unfold]; rfl
  | cons b rest ih =>
    rw [collectChars_unfold]
    show (table.getD (b >>> 4) 0) ::
        collectChars ⟨rest, table, some (table.getD (b &&& 0xf) 0)⟩ = _
    rw [collectChars_pending, ih]
    rfl

theorem encode_eq_flatMap (data : List Nat) :
    encode data = data.flatMap (hexPair HEX_CHARS_LOWER) :=
  collectChars_none_eq data HEX_CHARS_LOWER

theorem encodeUpper_eq_flatMap (data : List Nat) :
    encodeUpper data = data.flatMap (hexPair HEX_CHARS_UPPER) :=
  collectChars_none_eq data HEX_CHARS_UPPER

theorem val_ok_irrel {c i j v : Nat} (h : val c i = .ok v) :
    val c j = .ok v := by
  unfold val at h ⊢
  split_ifs at h ⊢ <;> simp_all

theorem val_cases (c i : Nat) :
    (∃ v, val c i = .ok v) ∨ val c i = .error (.InvalidHexCharacter c i) := by
  unfold val
  split_ifs <;> simp

theorem val_err_irrel {c : Nat} (h : ∀ v, val c 0 ≠ .ok v) (j : Nat) :
    val c j = .error (.InvalidHexCharacter c j) := by
  rcases val_cases c j with ⟨v, hv⟩ | he
  · exact absurd (val_ok_irrel hv) (h v)
  · exact he

theorem val_table_lower {v : Nat} (hv : v < 16) (idx : Nat) :
    val (HEX_CHARS_LOWER.getD v 0) idx = .ok v := by
  interval_cases v <;> rfl

theorem val_table_upper {v : Nat} (hv : v < 16) (idx : Nat) :
    val (HEX_CHARS_UPPER.getD v 0) idx = .ok v := by
  interval_cases v <;> rfl

set_option maxRecDepth 2000 in
theorem nibble_recombine : ∀ x, x < 256 → (x >>> 4) <<< 4 ||| (x &&& 15) = x := by
  decide

theorem shiftRight_four_lt {x : Nat} (h : x < 256) : x >>> 4 < 16 := by
  have := Nat.shiftRight_eq_div_pow x 4
  omega

theorem and_fifteen_lt (x : Nat) : x &&& 15 < 16 := by
  have : x &&& 15 ≤ 15 := Nat.and_le_right
  omega

theorem flatMap_hexPair_length (table b : List Nat) :
    (b.flatMap (hexPair table)).length = 2 * b.length := by
  induction b with
  | nil => rfl
  | cons x rest ih => simp [hexPair, ih] at *; omega

theorem decodePairs_flatMap_lower (b : List Nat) (hb : ∀ x ∈ b, x < 256) :
    ∀ i, decodePairs (b.flatMap (hexPair HEX_CHARS_LOWER)) i = .ok b := by
  induction b with
  | nil => intro i; rfl
  | cons x rest ih =>
    intro i
    have hx : x < 256 := hb x (by simp)
    have hrest : ∀ y ∈ rest, y < 256 := fun y hy => hb y (by simp [hy])
    show decodePairs
      (HEX_CHARS_LOWER.getD (x >>> 4) 0 :: HEX_CHARS_LOWER.getD (x &&& 0xf) 0 ::
        rest.flatMap (hexPair HEX_CHARS_LOWER)) i = .ok (x :: rest)
    rw [decodePairs, val_table_lower (shiftRight_four_lt hx),
      val_table_lower (and_fifteen_lt x), ih hrest (i + 1)]
    simp [nibble_recombine x hx]

theorem decodePairs_flatMap_upper (b : List Nat) (hb : ∀ x ∈ b, x < 256) :
    ∀ i, decodePairs (b.flatMap (hexPair HEX_CHARS_UPPER)) i = .ok b := by
  induction b with
  | nil => intro i; rfl
  | cons x rest ih =>
    intro i
    have hx : x < 256 := hb x (by simp)
    have hrest : ∀ y ∈ rest, y < 256 := fun y hy => hb y (by simp [hy])
    show decodePairs
      (HEX_CHARS_UPPER.getD (x >>> 4) 0 :: HEX_CHARS_UPPER.getD (x &&& 0xf) 0 ::
        rest.flatMap (hexPair HEX_CHARS_UPPER)) i = .ok (x :: rest)
    rw [decodePairs, val_table_upper (shiftRight_four_lt hx),
      val_table_upper (and_fifteen_lt x), ih hrest (i + 1)]
    simp [nibble_recombine x hx]

/-- C1: for every byte sequence `b`, `decode (encode b) = .ok b` and
`decode (encodeUpper b) = .ok b` — decode accepts the uppercase encoding and
recovers the exact original bytes. -/
theorem hex_roundtrip (b : List Nat) (hb : ∀ x ∈ b, x < 256) :
    decode (encode b) = .ok b ∧ decode (encodeUpper b) = .ok b := by
  constructor
  · have h1 : (b.flatMap (hexPair HEX_CHARS_LOWER)).length % 2 = 0 := by
      rw [flatMap_hexPair_length]; omega
    unfold decode fromHex
    rw [encode_eq_flatMap]
    simp only [h1]
    simpa using decodePairs_flatMap_lower b hb 0
  · have h2 : (b.flatMap (hexPair HEX_CHARS_UPPER)).length % 2 = 0 := by
      rw [flatMap_hexPair_length]; omega
    unfold decode fromHex
    rw [encodeUpper_eq_flatMap]
    simp only [h2]
    simpa using decodePairs_flatMap_upper b hb 0

theorem hex_roundtrip_witness :
    (∀ x ∈ [0, 1, 15, 16, 171, 255], x < 256) ∧
      decode (encode [0, 1, 15, 16, 171, 255]) = .ok [0, 1, 15, 16, 171, 255] ∧
      decode (encodeUpper [0, 1, 15, 16, 171, 255]) =
        .ok [0, 1, 15, 16, 171, 255] :=
  ⟨by decide, (hex_roundtrip _ (by decide)).1, (hex_roundtrip _ (by decide)).2⟩

/-- C6: encoding is a total function (it returns a list, never an error), and
`(encode b).length = 2 * b.length`, likewise for `encodeUpper`; encoding the
empty sequence gives the empty string. -/
theorem encode_length_total (b : List Nat) :
    (encode b).length = 2 * b.length ∧
      (encodeUpper b).length = 2 * b.length ∧
      encode [] = [] ∧ encodeUpper [] = [] := by
  refine ⟨?_, ?_, ?_, ?_⟩
  · rw [encode_eq_flatMap, flatMap_hexPair_length]
  · rw [encodeUpper_eq_flatMap, flatMap_hexPair_length]
  · rw [encode_eq_flatMap]; rfl
  · rw [encodeUpper_eq_flatMap]; rfl

/-- C7: `encode` emits, for each input byte in order, the table character at
index `byte >>> 4` followed by the one at index `byte &&& 0xf`, with the
lowercase table for `encode` and the uppercase table for `encodeUpper`; and
`encode [1,2,3,15,16]` is the code-unit sequence of `"0102030f10"`. -/
theorem encode_algorithm (b : List Nat) :
    encode b = b.flatMap (hexPair HEX_CHARS_LOWER) ∧
      encodeUpper b = b.flatMap (hexPair HEX_CHARS_UPPER) ∧
      encode [1, 2, 3, 15, 16] = [48, 49, 48, 50, 48, 51, 48, 102, 49, 48] := by
  refine ⟨encode_eq_flatMap b, encodeUpper_eq_flatMap b, ?_⟩
  rw [encode_eq_flatMap]
  rfl

theorem decodePairs_valid :
    ∀ (hex : List Nat), hex.length % 2 = 0 →
      (∀ c ∈ hex, ∃ v, val c 0 = .ok v) → ∀ i,
      ∃ bs, decodePairs hex i = .ok bs ∧ bs.length = hex.length / 2 ∧
        ∀ k, k < bs.length → ∃ h l,
          val (hex.getD (2 * k) 0) (2 * k) = .ok h ∧
          val (hex.getD (2 * k + 1) 0) (2 * k + 1) = .ok l ∧
          bs.getD k 0 = h <<< 4 ||| l
  | [], _, _, _ => ⟨[], rfl, rfl, by intro k hk; simp at hk⟩
  | [_], he, _, _ => by simp at he
  | c1 :: c2 :: rest, he, hv, i => by
    obtain ⟨v1, hv1⟩ := hv c1 (by simp)
    obtain ⟨v2, hv2⟩ := hv c2 (by simp)
    have herest : rest.length % 2 = 0 := by simp at he; omega
    have hvrest : ∀ c ∈ rest, ∃ v, val c 0 = .ok v :=
      fun c hc => hv c (by simp [hc])
    obtain ⟨bs, hbs, hlen, hidx⟩ := decodePairs_valid rest herest hvrest (i + 1)
    refine ⟨(v1 <<< 4 ||| v2) :: bs, ?_, ?_, ?_⟩
    · rw [decodePairs, val_ok_irrel hv1, val_ok_irrel hv2, hbs]
    · simp [hlen]; omega
    · intro k hk
      cases k with
      | zero => exact ⟨v1, v2, val_ok_irrel hv1, val_ok_irrel hv2, rfl⟩
      | succ k' =>
        obtain ⟨h, l, h1, h2, h3⟩ := hidx k' (by simpa using hk)
        refine ⟨h, l, ?_, ?_, by simpa using h3⟩
        · have e : (c1 :: c2 :: rest).getD (2 * (k' + 1)) 0 =
              rest.getD (2 * k') 0 := by
            rw [show 2 * (k' + 1) = 2 * k' + 1 + 1 by omega,
              List.getD_cons_succ, List.getD_cons_succ]
          rw [e]; exact val_ok_irrel h1
        · have e : (c1 :: c2 :: rest).getD (2 * (k' + 1) + 1) 0 =
              rest.getD (2 * k' + 1) 0 := by
            rw [show 2 * (k' + 1) + 1 = 2 * k' + 1 + 1 + 1 by omega,
              List.getD_cons_succ, List.getD_cons_succ]
          rw [e]; exact val_ok_irrel h2

/-- C2: an even-length input all of whose code units are hex digits decodes
successfully to exactly `length / 2` bytes, byte `k` being the high nibble of
position `2k` shifted left four, or-ed with the low nibble of position
`2k + 1`; the empty input therefore decodes to `.ok []`. -/
theorem decode_valid_ok (hex : List Nat) (he : hex.length % 2 = 0)
    (hv : ∀ c ∈ hex, ∃ v, val c 0 = .ok v) :
    ∃ bs, decode hex = .ok bs ∧ bs.length = hex.length / 2 ∧
      ∀ k, k < bs.length → ∃ h l,
        val (hex.getD (2 * k) 0) (2 * k) = .ok h ∧
        val (hex.getD (2 * k + 1) 0) (2 * k + 1) = .ok l ∧
        bs.getD k 0 = h <<< 4 ||| l := by
  obtain ⟨bs, h1, h2, h3⟩ := decodePairs_valid hex he hv 0
  refine ⟨bs, ?_, h2, h3⟩
  unfold decode fromHex
  simp [he, h1]

theorem decode_valid_ok_witness :
    decode [50, 97, 70, 48] = .ok [42, 240] ∧ decode [] = .ok [] := by
  obtain ⟨bs, hbs, -, -⟩ := decode_valid_ok [50, 97, 70, 48] (by decide)
    (by intro c hc; simp at hc
        rcases hc with rfl | rfl | rfl | rfl
        exacts [⟨2, rfl⟩, ⟨10, rfl⟩, ⟨15, rfl⟩, ⟨0, rfl⟩])
  obtain ⟨bs0, hbs0, -, -⟩ := decode_valid_ok [] (by decide)
    (by intro c hc; simp at hc)
  exact ⟨by decide, by decide⟩

/-- C3: any odd-length input makes `decode` and `decodeToSlice` fail with
`OddLength`, whatever its characters and whatever the output buffer; the
buffer is untouched. -/
theorem odd_length_first (hex out : List Nat) (ho : hex.length % 2 = 1) :
    decode hex = .error .OddLength ∧
      decodeToSlice hex out = (.error .OddLength, out) := by
  constructor
  · unfold decode fromHex; simp [ho]
  · unfold decodeToSlice; simp [ho]

theorem odd_length_first_witness :
    ([49, 103, 32] : List Nat).length % 2 = 1 ∧
      decode [49, 103, 32] = .error .OddLength ∧
      decodeToSlice [49, 103, 32] [5] = (.error .OddLength, [5]) :=
  ⟨by decide, (odd_length_first [49, 103, 32] [5] (by decide)).1,
    (odd_length_first [49, 103, 32] [5] (by decide)).2⟩

/-- C4: with an even-length input whose half-length differs from the output
buffer length (resp. from the fixed size `N`), `decodeToSlice` (resp. the
fixed-size array decode) fails with `InvalidStringLength` and leaves the
buffer untouched, regardless of character validity. -/
theorem invalid_string_length_second (data out : List Nat) (N : Nat)
    (he : data.length % 2 = 0) :
    (data.length / 2 ≠ out.length →
      decodeToSlice data out = (.error .InvalidStringLength, out)) ∧
    (data.length / 2 ≠ N →
      fromHexArray N data = .error .InvalidStringLength) := by
  constructor
  · intro hm; unfold decodeToSlice; simp [he, hm]
  · intro hm
    unfold fromHexArray decodeToSlice
    simp [he, hm]

theorem invalid_string_length_second_witness :
    ([54, 54, 97, 103, 54, 54, 97, 103, 54, 54, 97, 103] : List Nat).length % 2
        = 0 ∧
      decodeToSlice [54, 54, 97, 103, 54, 54, 97, 103, 54, 54, 97, 103]
        [0, 0, 0, 0, 0] = (.error .InvalidStringLength, [0, 0, 0, 0, 0]) ∧
      fromHexArray 5 [54, 54, 97, 103, 54, 54, 97, 103, 54, 54, 97, 103]
        = .error .InvalidStringLength :=
  ⟨by decide,
    (invalid_string_length_second _ [0, 0, 0, 0, 0] 5 (by decide)).1 (by decide),
    (invalid_string_length_second
      [54, 54, 97, 103, 54, 54, 97, 103, 54, 54, 97, 103] [0, 0, 0, 0, 0] 5
      (by decide)).2 (by decide)⟩

theorem decodePairs_err :
    ∀ (hex : List Nat) (i j : Nat), hex.length % 2 = 0 → j < hex.length →
      (∀ k, k < j → ∃ v, val (hex.getD k 0) 0 = .ok v) →
      (∀ v, val (hex.getD j 0) 0 ≠ .ok v) →
      decodePairs hex i =
        .error (.InvalidHexCharacter (hex.getD j 0) (2 * i + j))
  | [], _, j, _, hj, _, _ => absurd hj (by simp)
  | [_], _, _, he, _, _, _ => by simp at he
  | c1 :: c2 :: rest, i, 0, _, _, _, hbad => by
    have h1 := val_err_irrel (c := c1) (by simpa using hbad) (2 * i)
    rw [decodePairs, h1]
    simp
  | c1 :: c2 :: rest, i, 1, _, _, hok, hbad => by
    obtain ⟨v1, hv1⟩ := hok 0 (by omega)
    have h2 := val_err_irrel (c := c2) (by simpa using hbad) (2 * i + 1)
    rw [decodePairs,
      val_ok_irrel (show val c1 0 = .ok v1 by simpa using hv1), h2]
    simp
  | c1 :: c2 :: rest, i, j' + 2, he, hj, hok, hbad => by
    obtain ⟨v1, hv1⟩ := hok 0 (by omega)
    obtain ⟨v2, hv2⟩ := hok 1 (by omega)
    have ih := decodePairs_err rest (i + 1) j' (by simp at he; omega)
      (by simp at hj; omega)
      (fun k hk => by
        have := hok (k + 2) (by omega)
        simpa [List.getD_cons_succ] using this)
      (by simpa [List.getD_cons_succ] using hbad)
    rw [decodePairs,
      val_ok_irrel (show val c1 0 = .ok v1 by simpa using hv1),
      val_ok_irrel (show val c2 0 = .ok v2 by simpa using hv2), ih]
    have e : (c1 :: c2 :: rest).getD (j' + 2) 0 = rest.getD j' 0 := by
      rw [show j' + 2 = j' + 1 + 1 by omega,
        List.getD_cons_succ, List.getD_cons_succ]
    rw [e]
    have : 2 * (i + 1) + j' = 2 * i + (j' + 2) := by omega
    rw [this]

/-- C5: on an even-length input whose leftmost non-hex-digit sits at index
`j`, `decode` fails with `InvalidHexCharacter` carrying exactly that code
unit and index `j` — pairs are scanned left to right, position `2i` before
`2i + 1`. -/
theorem first_error_reported (hex : List Nat) (j : Nat)
    (he : hex.length % 2 = 0) (hj : j < hex.length)
    (hok : ∀ k, k < j → ∃ v, val (hex.getD k 0) 0 = .ok v)
    (hbad : ∀ v, val (hex.getD j 0) 0 ≠ .ok v) :
    decode hex = .error (.InvalidHexCharacter (hex.getD j 0) j) := by
  have h := decodePairs_err hex 0 j he hj hok hbad
  unfold decode fromHex
  rw [if_neg (by omega)]
  simpa using h

theorem first_error_reported_witness :
    ([54, 54, 97, 103] : List Nat).length % 2 = 0 ∧
      3 < ([54, 54, 97, 103] : List Nat).length ∧
      decode [54, 54, 97, 103] = .error (.InvalidHexCharacter 103 3) ∧
      decode [54, 54, 54, 102, 32, 54] = .error (.InvalidHexCharacter 32 4) := by
  refine ⟨by decide, by decide, ?_, ?_⟩
  · exact first_error_reported [54, 54, 97, 103] 3 (by decide) (by decide)
      (by intro k hk; interval_cases k
          exacts [⟨6, rfl⟩, ⟨6, rfl⟩, ⟨10, rfl⟩])
      (by intro v hv; simp [val] at hv)
  · exact first_error_reported [54, 54, 54, 102, 32, 54] 4 (by decide) (by decide)
      (by intro k hk; interval_cases k
          exacts [⟨6, rfl⟩, ⟨6, rfl⟩, ⟨6, rfl⟩, ⟨15, rfl⟩])
      (by intro v hv; simp [val] at hv)

theorem collectChars_length (s : BytesToHexChars) :
    (collectChars s).length = s.len := by
  obtain ⟨inner, table, nxt⟩ := s
  cases nxt with
  | none =>
    rw [collectChars_none_eq, flatMap_hexPair_length]
    simp [BytesToHexChars.len]
    omega
  | some c =>
    rw [collectChars_pending, List.length_cons, collectChars_none_eq,
      flatMap_hexPair_length]
    simp [BytesToHexChars.len]
    omega

/-- C8: in every iterator state, `len` equals twice the number of unconsumed
bytes plus one if a low-nibble character is buffered; `sizeHint` is exact
(both bounds equal `len`); `len` predicts exactly how many characters remain
to be yielded; and from a fresh state the producer yields `2 × input length`
characters in total. -/
theorem producer_len_exact (s : BytesToHexChars) (data table : List Nat) :
    s.len = 2 * s.inner.length + (if s.next.isSome then 1 else 0) ∧
      s.sizeHint = (s.len, some s.len) ∧
      (collectChars s).length = s.len ∧
      (collectChars (BytesToHexChars.new data table)).length =
        2 * data.length := by
  refine ⟨?_, rfl, collectChars_length s, ?_⟩
  · cases hn : s.next <;> simp [BytesToHexChars.len, hn] <;> omega
  · rw [collectChars_length]
    simp [BytesToHexChars.new, BytesToHexChars.len]
    omega

/-- The all-lowercase version of a hex string, as the spec's §8 "single-case
version" wording: uppercase hex digits are shifted to lowercase, every other
code unit is kept. -/
def lowerHexChar (c : Nat) : Nat :=
  if 65 ≤ c ∧ c ≤ 70 then c + 32 else c

/-- The all-uppercase version of a hex string: lowercase hex digits are
shifted to uppercase, every other code unit is kept. -/
def upperHexChar (c : Nat) : Nat :=
  if 97 ≤ c ∧ c ≤ 102 then c - 32 else c

theorem val_lowerHexChar (c i : Nat) : val (lowerHexChar c) i = val c i := by
  unfold val lowerHexChar
  split_ifs <;> first | rfl | omega

set_option maxRecDepth 4000 in
theorem val_upperHexChar (c i : Nat) : val (upperHexChar c) i = val c i := by
  unfold val upperHexChar
  split_ifs <;> first | rfl | omega

theorem decodePairs_map_lower :
    ∀ (hex : List Nat) (i : Nat),
      decodePairs (hex.map lowerHexChar) i = decodePairs hex i
  | [], _ => rfl
  | [_], _ => rfl
  | c1 :: c2 :: rest, i => by
    show decodePairs (lowerHexChar c1 :: lowerHexChar c2 ::
      rest.map lowerHexChar) i = _
    rw [decodePairs, decodePairs, val_lowerHexChar, val_lowerHexChar,
      decodePairs_map_lower rest (i + 1)]

theorem decodePairs_map_upper :
    ∀ (hex : List Nat) (i : Nat),
      decodePairs (hex.map upperHexChar) i = decodePairs hex i
  | [], _ => rfl
  | [_], _ => rfl
  | c1 :: c2 :: rest, i => by
    show decodePairs (upperHexChar c1 :: upperHexChar c2 ::
      rest.map upperHexChar) i = _
    rw [decodePairs, decodePairs, val_upperHexChar, val_upperHexChar,
      decodePairs_map_upper rest (i + 1)]

/-- C9: decoding a hex-digit string with arbitrarily mixed case gives the
same result as decoding its all-lowercase or all-uppercase version; in
particular `decode "666F6F626172" = decode "666f6f626172"`. -/
theorem case_mixing (hex : List Nat)
    (hv : ∀ c ∈ hex, ∃ v, val c 0 = .ok v) :
    decode (hex.map lowerHexChar) = decode hex ∧
      decode (hex.map upperHexChar) = decode hex ∧
      decode [54, 54, 54, 70, 54, 70, 54, 50, 54, 49, 55, 50] =
        decode [54, 54, 54, 102, 54, 102, 54, 50, 54, 49, 55, 50] := by
  refine ⟨?_, ?_, by decide⟩
  · unfold decode fromHex
    rw [List.length_map, decodePairs_map_lower]
  · unfold decode fromHex
    rw [List.length_map, decodePairs_map_upper]

theorem case_mixing_witness :
    decode (([54, 54, 54, 70, 54, 70, 54, 50, 54, 49, 55, 50] :
        List Nat).map lowerHexChar) =
      decode [54, 54, 54, 70, 54, 70, 54, 50, 54, 49, 55, 50] ∧
      decode [54, 54, 54, 70, 54, 70, 54, 50, 54, 49, 55, 50] =
        .ok [102, 111, 111, 98, 97, 114] :=
  ⟨(case_mixing [54, 54, 54, 70, 54, 70, 54, 50, 54, 49, 55, 50]
    (by intro c hc; fin_cases hc <;> exact ⟨_, rfl⟩)).1,
   by decide⟩

theorem val_error_shape {c i : Nat} {e : FromHexError}
    (h : val c i = .error e) : e = .InvalidHexCharacter c i := by
  rcases val_cases c i with ⟨v, hv⟩ | he
  · rw [hv] at h; cases h
  · rw [he] at h; cases h; rfl

theorem go_fst_shape (data : List Nat) :
    ∀ (out : List Nat) (i : Nat),
      (decodeToSliceGo data out i).1 = .ok () ∨
        ∃ c idx, (decodeToSliceGo data out i).1 =
          .error (.InvalidHexCharacter c idx)
  | [], _ => .inl rfl
  | b :: rest, i => by
    rw [decodeToSliceGo]
    cases hv1 : val (data.getD (2 * i) 0) (2 * i) with
    | error e =>
      right
      exact ⟨data.getD (2 * i) 0, 2 * i, by simp [val_error_shape hv1]⟩
    | ok h =>
      cases hv2 : val (data.getD (2 * i + 1) 0) (2 * i + 1) with
      | error e =>
        right
        exact ⟨data.getD (2 * i + 1) 0, 2 * i + 1,
          by simp [val_error_shape hv2]⟩
      | ok l => simpa using go_fst_shape data rest (i + 1)

theorem go_err_frame (data : List Nat) :
    ∀ (out : List Nat) (i c idx : Nat),
      (decodeToSliceGo data out i).1 =
          .error (.InvalidHexCharacter c idx) →
        i ≤ idx / 2 ∧
        (decodeToSliceGo data out i).2.length = out.length ∧
        (∀ k, idx / 2 - i ≤ k →
          (decodeToSliceGo data out i).2.getD k 0 = out.getD k 0) ∧
        (∀ k, k < idx / 2 - i → ∃ h l,
          val (data.getD (2 * (i + k)) 0) (2 * (i + k)) = .ok h ∧
          val (data.getD (2 * (i + k) + 1) 0) (2 * (i + k) + 1) = .ok l ∧
          (decodeToSliceGo data out i).2.getD k 0 = h <<< 4 ||| l)
  | [], i, c, idx => by intro h; rw [decodeToSliceGo] at h; cases h
  | b :: rest, i, c, idx => by
    intro herr
    cases hv1 : val (data.getD (2 * i) 0) (2 * i) with
    | error e =>
      simp only [decodeToSliceGo, hv1] at herr ⊢
      have hsh := val_error_shape hv1
      rw [hsh] at herr
      injection herr with h2
      cases h2
      refine ⟨by omega, trivial, fun k _ => trivial,
        fun k hk => absurd hk (by omega)⟩
    | ok h1 =>
      cases hv2 : val (data.getD (2 * i + 1) 0) (2 * i + 1) with
      | error e =>
        simp only [decodeToSliceGo, hv1, hv2] at herr ⊢
        have hsh := val_error_shape hv2
        rw [hsh] at herr
        injection herr with h2
        cases h2
        refine ⟨by omega, trivial, fun k _ => trivial,
          fun k hk => absurd hk (by omega)⟩
      | ok l1 =>
        simp only [decodeToSliceGo, hv1, hv2] at herr ⊢
        obtain ⟨hle, hlen, hunch, hwr⟩ :=
          go_err_frame data rest (i + 1) c idx herr
        refine ⟨by omega, by simpa using hlen, ?_, ?_⟩
        · intro k hk
          obtain ⟨k', rfl⟩ : ∃ k', k = k' + 1 := ⟨k - 1, by omega⟩
          rw [List.getD_cons_succ, List.getD_cons_succ]
          exact hunch k' (by omega)
        · intro k hk
          cases k with
          | zero =>
            exact ⟨h1, l1, by simpa using hv1, by simpa using hv2, rfl⟩
          | succ k' =>
            obtain ⟨h, l, ha, hb, hc⟩ := hwr k' (by omega)
            refine ⟨h, l, ?_, ?_, by simpa using hc⟩
            · rw [show 2 * (i + (k' + 1)) = 2 * (i + 1 + k') by omega]
              exact ha
            · rw [show 2 * (i + (k' + 1)) + 1 = 2 * (i + 1 + k') + 1 by omega]
              exact hb

/-- C10: when `decodeToSlice` fails with `OddLength` or
`InvalidStringLength` the output buffer is untouched; when it fails with
`InvalidHexCharacter` at index `idx` (pair `idx / 2`), positions before
`idx / 2` hold the decoded values of the preceding pairs and positions from
`idx / 2` on are unchanged. -/
theorem decode_to_slice_write_extent (data out : List Nat) :
    ((decodeToSlice data out).1 = .error .OddLength →
      (decodeToSlice data out).2 = out) ∧
    ((decodeToSlice data out).1 = .error .InvalidStringLength →
      (decodeToSlice data out).2 = out) ∧
    (∀ c idx,
      (decodeToSlice data out).1 = .error (.InvalidHexCharacter c idx) →
      (decodeToSlice data out).2.length = out.length ∧
      (∀ k, idx / 2 ≤ k →
        (decodeToSlice data out).2.getD k 0 = out.getD k 0) ∧
      (∀ k, k < idx / 2 → ∃ h l,
        val (data.getD (2 * k) 0) (2 * k) = .ok h ∧
        val (data.getD (2 * k + 1) 0) (2 * k + 1) = .ok l ∧
        (decodeToSlice data out).2.getD k 0 = h <<< 4 ||| l)) := by
  unfold decodeToSlice
  split_ifs with h1 h2
  · exact ⟨fun _ => rfl, fun _ => rfl, fun c idx h => by cases h⟩
  · exact ⟨fun _ => rfl, fun _ => rfl, fun c idx h => by cases h⟩
  · refine ⟨?_, ?_, ?_⟩
    · intro h
      rcases go_fst_shape data out 0 with hok | ⟨c, idx, he⟩
      · rw [hok] at h; cases h
      · rw [he] at h; cases h
    · intro h
      rcases go_fst_shape data out 0 with hok | ⟨c, idx, he⟩
      · rw [hok] at h; cases h
      · rw [he] at h; cases h
    · intro c idx h
      obtain ⟨-, hlen, hunch, hwr⟩ := go_err_frame data out 0 c idx h
      refine ⟨hlen, fun k hk => hunch k (by omega), fun k hk => ?_⟩
      obtain ⟨hh, ll, ha, hb, hc⟩ := hwr k (by omega)
      exact ⟨hh, ll, by simpa using ha, by simpa using hb, hc⟩

theorem decode_to_slice_write_extent_witness :
    (decodeToSlice [54, 54, 97, 103, 54, 54] [9, 9, 9]).1 =
        .error (.InvalidHexCharacter 103 3) ∧
      (decodeToSlice [54, 54, 97, 103, 54, 54] [9, 9, 9]).2.getD 1 0 = 9 ∧
      (decodeToSlice [54, 54, 97, 103, 54, 54] [9, 9, 9]).2.getD 2 0 = 9 ∧
      (decodeToSlice [54, 54, 97, 103, 54, 54] [9, 9, 9]).2.getD 0 0 = 102 := by
  have h := (decode_to_slice_write_extent [54, 54, 97, 103, 54, 54]
    [9, 9, 9]).2.2 103 3 (by decide)
  exact ⟨by decide, h.2.1 1 (by decide), h.2.1 2 (by decide), by decide⟩

end HexSpec
